import Mathlib

/-!
Verification of the alignment analytics and structural covariation engine of
Bio-Easel (src/lib/Bio/Easel/MSA.c) against its natural-language specification.

Numeric conventions of the shallow embedding:
* C `double` arithmetic is embedded as exact rational arithmetic (`ℚ`);
  division by zero in `ℚ` yields `0` (where C would produce NaN or inf, this
  is noted at the relevant theorem).
* digitized residue codes (C `int` values in `0..Kp-1`, type `ESL_DSQ`) are
  embedded as `ℕ`; sequence indices passed as C `int` arguments are embedded
  as `ℤ` where the source checks them for negativity.
* C arrays that the source initialises to a constant and then only updates
  with `+=` inside loops are embedded per entry as a `List.foldl` over the
  same iteration space, in the source's iteration order; this is sound
  because the loops never read any accumulator entry while accumulating.
-/

/-- `_c_bp_dist` (MSA.c:772-778): number of differing halves between the two
basepair realizations `a1:b1` and `a2:b2`. -/
def bp_dist (a1 b1 a2 b2 : ℕ) : ℕ :=
  if a1 = a2 ∧ b1 = b2 then 0
  else if a1 ≠ a2 ∧ b1 ≠ b2 then 2
  else 1

/-- `_c_bp_is_canonical` (MSA.c:807-877): the fixed table of canonical pairs,
embedded as the same chain of case distinctions as the C `switch` on `a`
with an inner `switch` on `b`. -/
def bp_is_canonical (a b : ℕ) : Bool :=
  if a = 0 then (if b = 3 then true else false)
  else if a = 1 then (if b = 2 then true else false)
  else if a = 2 then (if b = 1 then true else if b = 3 then true else false)
  else if a = 3 then (if b = 0 then true else if b = 2 then true else false)
  else if a = 5 then (if b = 6 then true else false)
  else if a = 6 then (if b = 5 then true else false)
  else if a = 7 then (if b = 8 then true else false)
  else if a = 8 then (if b = 7 then true else false)
  else if a = 9 then (if b = 9 then true else false)
  else if a = 10 then (if b = 10 then true else false)
  else false

/-- The twelve code pairs for which `_c_bp_is_canonical` returns TRUE,
as listed in its own doc comment (MSA.c:786-805). -/
def canonicalPairs : List (ℕ × ℕ) :=
  [(0,3), (3,0), (1,2), (2,1), (2,3), (3,2),
   (5,6), (6,5), (7,8), (8,7), (9,9), (10,10)]

/-- `_c_max_rna_two_letter_ambiguity` (MSA.c:898-933), embedded statement by
statement.  The source's `'R'` branch (MSA.c:908-911) stores
`(act + cct) / sum` into `max_2l_frac` — not `(act + gct) / sum` — and the
embedding reproduces that exactly. -/
def max_rna_two_letter_ambiguity (act cct gct uct : ℚ) : Char × ℚ :=
  let sum := act + cct + gct + uct
  let s0 : Char × ℚ := ('M', (act + cct) / sum)
  let s1 : Char × ℚ := if (act + gct) / sum > s0.2 then ('R', (act + cct) / sum) else s0
  let s2 : Char × ℚ := if (act + uct) / sum > s1.2 then ('W', (act + uct) / sum) else s1
  let s3 : Char × ℚ := if (cct + gct) / sum > s2.2 then ('S', (cct + gct) / sum) else s2
  let s4 : Char × ℚ := if (cct + uct) / sum > s3.2 then ('Y', (cct + uct) / sum) else s3
  let s5 : Char × ℚ := if (gct + uct) / sum > s4.2 then ('K', (gct + uct) / sum) else s4
  s5

/-- The behaviour the spec (§4.5) ascribes to `dominantTwoLetterCode`:
each comparison replaces the running maximum on strict `>` and stores the
compared sum's own fraction. -/
def max_rna_two_letter_ambiguity_spec (act cct gct uct : ℚ) : Char × ℚ :=
  let sum := act + cct + gct + uct
  let s0 : Char × ℚ := ('M', (act + cct) / sum)
  let s1 : Char × ℚ := if (act + gct) / sum > s0.2 then ('R', (act + gct) / sum) else s0
  let s2 : Char × ℚ := if (act + uct) / sum > s1.2 then ('W', (act + uct) / sum) else s1
  let s3 : Char × ℚ := if (cct + gct) / sum > s2.2 then ('S', (cct + gct) / sum) else s2
  let s4 : Char × ℚ := if (cct + uct) / sum > s3.2 then ('Y', (cct + uct) / sum) else s3
  let s5 : Char × ℚ := if (gct + uct) / sum > s4.2 then ('K', (gct + uct) / sum) else s4
  s5

/-- The alignment data model (spec §3) as consumed by the analytics engine:
a digitized residue matrix `ax i c` for sequence `i ∈ [0,nseq)` and 1-based
column `c ∈ [1,alen]`, per-sequence weights `wgt`, alphabet size `K`
(code `K` is the gap/missing code and codes above `K` are degenerate, spec
§3), and the 1-based partner array `ct` produced by the external structure
parser (`esl_wuss_nopseudo` + `esl_wuss2ct`, MSA.c:1075-1076; `ct c = 0`
when column `c` is unpaired). -/
structure MSA where
  nseq : ℕ
  alen : ℕ
  K : ℕ
  Kp : ℕ
  ax : ℕ → ℕ → ℕ
  wgt : ℕ → ℚ
  ct : ℕ → ℕ

/-- MSA.c:1087-1093: `rposA[apos]` is the 0-based right position of the
basepair whose 0-based left half is `apos`, else `-1`. -/
def rposA (msa : MSA) (apos : ℕ) : ℤ :=
  if msa.ct (apos + 1) > apos + 1 then (msa.ct (apos + 1) : ℤ) - 1 else -1

/-- MSA.c:1087-1093: `nbp`, the number of basepairs in the (possibly
deknotted) consensus structure, counted by the same loop that fills
`rposA`. -/
def nbp (msa : MSA) : ℕ :=
  (List.range msa.alen).foldl
    (fun acc apos => if msa.ct (apos + 1) > apos + 1 then acc + 1 else acc) 0

/-- MSA.c:1120-1152, body of the `i` loop at one alignment position `apos`
with right position `rpos`: if sequence `i` passes the gate
`a1 != K || b1 != K` (MSA.c:1127), the inner `j` loop adds its covariation
contribution and weight denominator for every `j > i`; the state `s` is the
pair (covA[apos], cov_cntA[apos]). -/
def covStep (msa : MSA) (apos rpos i : ℕ) (s : ℚ × ℚ) : ℚ × ℚ :=
  let seqwt1 := msa.wgt i
  let a1 := msa.ax i (apos + 1)
  let b1 := msa.ax i (rpos + 1)
  if a1 ≠ msa.K ∨ b1 ≠ msa.K then
    (List.range' (i + 1) (msa.nseq - (i + 1))).foldl (fun t j =>
      let seqwt2 := msa.wgt j
      let a2 := msa.ax j (apos + 1)
      let b2 := msa.ax j (rpos + 1)
      let d : ℚ := (bp_dist a1 b1 a2 b2 : ℚ)
      let contrib : ℚ :=
        if bp_is_canonical a1 b1 = true ∧ bp_is_canonical a2 b2 = true
        then d * (seqwt1 + seqwt2)
        else -1 * d * (seqwt1 + seqwt2)
      (t.1 + contrib, t.2 + (seqwt1 + seqwt2))) s
  else s

/-- MSA.c:1116-1152: final value of the entry pair
(covA[apos], cov_cntA[apos]) after the accumulation loops.  The C loop nest
iterates `i` outermost, and apart from these two entries reads no
accumulator, so the per-entry value is the fold of `covStep` over `i` in
the C iteration order. -/
def covPair (msa : MSA) (apos : ℕ) : ℚ × ℚ :=
  if rposA msa apos ≠ -1 then
    (List.range msa.nseq).foldl
      (fun s i => covStep msa apos (rposA msa apos).toNat i s) (0, 0)
  else (0, 0)

/-- covA[apos] before the per-position normalization of MSA.c:1158-1164. -/
def covA_raw (msa : MSA) (apos : ℕ) : ℚ := (covPair msa apos).1

/-- cov_cntA[apos] (MSA.c:1059,1147). -/
def cov_cnt (msa : MSA) (apos : ℕ) : ℚ := (covPair msa apos).2

/-- MSA.c:1128-1132: `seq_canA[i]`, the number of canonical basepairs in
sequence `i`; for fixed `i` only the `apos` loop touches the entry, and the
increment happens iff the position is a left pair half, the gate of
MSA.c:1127 passes, and the realization is canonical. -/
def seq_can (msa : MSA) (i : ℕ) : ℕ :=
  (List.range msa.alen).foldl (fun acc apos =>
    if rposA msa apos ≠ -1 then
      (if (msa.ax i (apos + 1) ≠ msa.K ∨ msa.ax i ((rposA msa apos).toNat + 1) ≠ msa.K) ∧
          bp_is_canonical (msa.ax i (apos + 1)) (msa.ax i ((rposA msa apos).toNat + 1)) = true
       then acc + 1 else acc)
    else acc) 0

/-- MSA.c:1128-1132: `pos_canA[apos]`, the number of sequences whose
realization of the basepair at `apos` is canonical (same guards as
`seq_can`, fold over `i`). -/
def pos_can (msa : MSA) (apos : ℕ) : ℕ :=
  if rposA msa apos ≠ -1 then
    (List.range msa.nseq).foldl (fun acc i =>
      if (msa.ax i (apos + 1) ≠ msa.K ∨ msa.ax i ((rposA msa apos).toNat + 1) ≠ msa.K) ∧
         bp_is_canonical (msa.ax i (apos + 1)) (msa.ax i ((rposA msa apos).toNat + 1)) = true
      then acc + 1 else acc) 0
  else 0

/-- MSA.c:1155: the mean covariation statistic, computed from the RAW
(pre-normalization) covA and cov_cntA arrays, guarded by `nbp == 0`. -/
def mean_cov (msa : MSA) : ℚ :=
  if nbp msa = 0 then 0
  else ((List.range msa.alen).map (covA_raw msa)).sum /
       ((List.range msa.alen).map (cov_cnt msa)).sum

/-- MSA.c:1158-1164: the reported per-position covariation — divided by the
position's own weight denominator only when `fabs(cov_cntA[apos]) > 1E-10`
(strict), and only at left pair halves. -/
def covA_rep (msa : MSA) (apos : ℕ) : ℚ :=
  if rposA msa apos ≠ -1 ∧ |cov_cnt msa apos| > 1 / 10 ^ 10 then
    covA_raw msa apos / cov_cnt msa apos
  else covA_raw msa apos

/-- MSA.c:1389-1397: the per-basepair records emitted by the report
assembler, one per left pair half, in column order: (left position, right
position, fraction canonical, reported covariation). -/
def bp_records (msa : MSA) : List (ℕ × ℕ × ℚ × ℚ) :=
  (List.range msa.alen).foldr (fun apos acc =>
    if rposA msa apos ≠ -1 then
      (apos + 1, (rposA msa apos).toNat + 1, (pos_can msa apos : ℚ) / (msa.nseq : ℚ),
        covA_rep msa apos) :: acc
    else acc) []

/-- MSA.c:1344: the family-level fractional-canonical-basepairs field,
guarded by `nbp == 0`. -/
def fam_fractn_canonical (msa : MSA) : ℚ :=
  if nbp msa = 0 then 0
  else ((((List.range msa.nseq).map (seq_can msa)).sum : ℕ) : ℚ) /
       ((msa.nseq : ℚ) * (nbp msa : ℚ))

/-- MSA.c:1375: the per-sequence fractional-canonical-basepairs field,
guarded by `nbp == 0`. -/
def seq_fractn_canonical (msa : MSA) (i : ℕ) : ℚ :=
  if nbp msa = 0 then 0 else (seq_can msa i : ℚ) / (nbp msa : ℚ)

/-- Modelled from the spec: `esl_dst_XPairId` (Easel) is not under `src/`.
Spec §4.3 defines pairwiseIdentity as (number of aligned columns where the
two residues are equal, both non-gap) divided by (number of aligned columns
where both are non-gap); in `ℚ`, an empty denominator yields 0. -/
def pid (msa : MSA) (i j : ℕ) : ℚ :=
  let cols := (List.range msa.alen).map (· + 1)
  let shared := (cols.filter (fun c => msa.ax i c ≠ msa.K ∧ msa.ax j c ≠ msa.K)).length
  let idents := (cols.filter (fun c =>
    msa.ax i c = msa.ax j c ∧ msa.ax i c ≠ msa.K ∧ msa.ax j c ≠ msa.K)).length
  (idents : ℚ) / (shared : ℚ)

/-- Accumulator of `_c_rfam_pid_stats` (MSA.c:1213-1216). -/
structure PidAcc where
  pmin : ℚ
  pmax : ℚ
  psum : ℚ
deriving DecidableEq

/-- MSA.c:1208-1238: all-pairs identity statistics.  The double loop visits
every pair `i < j`; `pid_min` starts at 1 and `pid_max` at 0; the mean is
the accumulated sum divided by `nseq*(nseq-1)/2` computed in integer
arithmetic (MSA.c:1231).  The function has NO guard on `nseq < 2`: with
fewer than two sequences the division is by zero (NaN in C, 0 in `ℚ`).
Returns (mean, min, max). -/
def rfam_pid_stats (msa : MSA) : ℚ × ℚ × ℚ :=
  let acc := (List.range msa.nseq).foldl (fun acc i =>
    (List.range' (i + 1) (msa.nseq - (i + 1))).foldl (fun acc j =>
      { pmin := min acc.pmin (pid msa i j)
        pmax := max acc.pmax (pid msa i j)
        psum := acc.psum + pid msa i j }) acc)
    ({ pmin := 1, pmax := 0, psum := 0 } : PidAcc)
  (acc.psum / ((msa.nseq * (msa.nseq - 1) / 2 : ℕ) : ℚ), acc.pmin, acc.pmax)

/-- MSA.c:1451-1468: `_c_pairwise_identity`; the two `croak` calls on
out-of-range indices (C `int` arguments, hence `ℤ`) are mirrored as
`Except.error`. -/
def pairwise_identity (msa : MSA) (i j : ℤ) : Except String ℚ :=
  if i < 0 ∨ (msa.nseq : ℤ) ≤ i then
    Except.error "_c_pairwise_identity() contract violation, idx i out of bounds"
  else if j < 0 ∨ (msa.nseq : ℤ) ≤ j then
    Except.error "_c_pairwise_identity() contract violation, idx j out of bounds"
  else Except.ok (pid msa i.toNat j.toNat)

/-- Modelled from the spec: `esl_abc_XIsResidue` (Easel) is not under
`src/`.  Spec §3: codes `0..K-1` are standard residues, `K` is the
gap/missing/non-residue code, codes above `K` (up to `Kp-1`) are degenerate
residues; a residue is any code other than `K` within `[0, Kp)`. -/
def isResidueCode (msa : MSA) (x : ℕ) : Bool := x < msa.Kp ∧ x ≠ msa.K

/-- Modelled from the spec: `esl_abc_DCount` (Easel) is not under `src/`.
Spec §4.2: a standard code `x < K` adds `wt` to bucket `x`; the gap code
`K` adds `wt` to the catch-all bucket `K` (spec §3); degenerate codes
(`x > K`) are "skipped entirely, neither added to any bucket". -/
def dcount (msa : MSA) (cnt : ℕ → ℚ) (x : ℕ) (wt : ℚ) : ℕ → ℚ :=
  fun y => if x ≤ msa.K ∧ y = x then cnt x + wt else cnt y

/-- MSA.c:986-991: `lenA[i]`, the nongap length of sequence `i` (unweighted
count of residue-classified columns). -/
def seq_len (msa : MSA) (i : ℕ) : ℕ :=
  (List.range msa.alen).foldl (fun acc apos =>
    if isResidueCode msa (msa.ax i (apos + 1)) then acc + 1 else acc) 0

/-- MSA.c:986-991: `abcAA[i]`, the weighted composition counts of sequence
`i`, built by calling `dcount` on every column with weight `wgt i`. -/
def abcA (msa : MSA) (i : ℕ) : ℕ → ℚ :=
  (List.range msa.alen).foldl
    (fun cnt apos => dcount msa cnt (msa.ax i (apos + 1)) (msa.wgt i)) (fun _ => 0)
/-- The per-sequence-pair covariation term as the spec (§4.4) words it:
`bpDistance * (weight i + weight j)` when both sequences' realizations of
the pair `(apos, rpos)` are individually canonical, else its negation. -/
def cov_term (msa : MSA) (apos rpos i j : ℕ) : ℚ :=
  if bp_is_canonical (msa.ax i (apos + 1)) (msa.ax i (rpos + 1)) = true ∧
     bp_is_canonical (msa.ax j (apos + 1)) (msa.ax j (rpos + 1)) = true
  then (bp_dist (msa.ax i (apos + 1)) (msa.ax i (rpos + 1))
          (msa.ax j (apos + 1)) (msa.ax j (rpos + 1)) : ℚ) * (msa.wgt i + msa.wgt j)
  else -((bp_dist (msa.ax i (apos + 1)) (msa.ax i (rpos + 1))
          (msa.ax j (apos + 1)) (msa.ax j (rpos + 1)) : ℚ) * (msa.wgt i + msa.wgt j))

/-- The weight-denominator accumulation as claim C2 describes it: a pair
(i, j) of sequences contributes only when BOTH sequences have a non-gap
residue pair at the two paired columns (both halves non-gap, for i and
for j). -/
def cov_cnt_claim (msa : MSA) (apos : ℕ) : ℚ :=
  if rposA msa apos ≠ -1 then
    ∑ i in Finset.range msa.nseq, ∑ j in Finset.Ico (i + 1) msa.nseq,
      if (msa.ax i (apos + 1) ≠ msa.K ∧ msa.ax i ((rposA msa apos).toNat + 1) ≠ msa.K) ∧
         (msa.ax j (apos + 1) ≠ msa.K ∧ msa.ax j ((rposA msa apos).toNat + 1) ≠ msa.K)
      then msa.wgt i + msa.wgt j else 0
  else 0

/-- Example alignment: 2 sequences, 2 columns paired (1,2); sequence 0 is
gap at column 1 and A at column 2; sequence 1 is all gaps (RNA: K = 4,
Kp = 18). -/
def msaHalfGap : MSA where
  nseq := 2
  alen := 2
  K := 4
  Kp := 18
  ax := fun i c => if i = 0 ∧ c = 2 then 0 else 4
  wgt := fun _ => 1
  ct := fun c => if c = 1 then 2 else if c = 2 then 1 else 0

/-- Example alignment: 2 sequences, 2 columns paired (1,2); sequence 0
reads A,U (canonical), sequence 1 reads A,A; both weights 1/(2*10^10), so
the pair's weight denominator is exactly 10^-10. -/
def msaTinyWgt : MSA where
  nseq := 2
  alen := 2
  K := 4
  Kp := 18
  ax := fun i c => if i = 0 ∧ c = 2 then 3 else 0
  wgt := fun _ => 1 / 20000000000
  ct := fun c => if c = 1 then 2 else if c = 2 then 1 else 0

/-- Example alignment: a single all-A sequence, no consensus pairs. -/
def msaSolo : MSA where
  nseq := 1
  alen := 1
  K := 4
  Kp := 18
  ax := fun _ _ => 0
  wgt := fun _ => 1
  ct := fun _ => 0

/-- Example alignment: two identical one-column sequences, no structure. -/
def msaTwin : MSA where
  nseq := 2
  alen := 1
  K := 4
  Kp := 18
  ax := fun _ _ => 0
  wgt := fun _ => 1
  ct := fun _ => 0

/-- The pairwise identities visited by `_c_rfam_pid_stats`, flattened in
the loop order (i outer, j in `(i, nseq)`). -/
def pidL (msa : MSA) : List ℚ :=
  ((List.range msa.nseq).map
    (fun i => (List.range' (i + 1) (msa.nseq - (i + 1))).map (pid msa i))).flatten

/-- Example alignment: one sequence reading A, R (degenerate, code 5),
gap — for the composition-count claims. -/
def msaDegen : MSA where
  nseq := 1
  alen := 3
  K := 4
  Kp := 18
  ax := fun _ c => if c = 1 then 0 else if c = 2 then 5 else 4
  wgt := fun _ => 1
  ct := fun _ => 0

-- Helper lemmas relating the loop-order folds to closed-form sums.

theorem foldl_add_range {M : Type*} [AddCommMonoid M] (n : ℕ) (f : ℕ → M) (a : M) :
    (List.range n).foldl (fun s x => s + f x) a = a + ∑ x in Finset.range n, f x := by
  induction n generalizing a with
  | zero => simp
  | succ n ih =>
    rw [List.range_succ, List.foldl_append, ih, List.foldl_cons, List.foldl_nil,
      Finset.sum_range_succ, add_assoc]

theorem foldl_count_range1 (n : ℕ) (p : ℕ → Prop) [DecidablePred p] (a : ℕ) :
    (List.range n).foldl (fun acc x => if p x then acc + 1 else acc) a
      = a + ((Finset.range n).filter p).card := by
  induction n generalizing a with
  | zero => simp
  | succ n ih =>
    rw [List.range_succ, List.foldl_append, ih, List.foldl_cons, List.foldl_nil,
      Finset.range_succ, Finset.filter_insert]
    by_cases hp : p n
    · rw [if_pos hp, if_pos hp, Finset.card_insert_of_not_mem (by simp)]
      omega
    · rw [if_neg hp, if_neg hp]

theorem foldl_count_range2 (n : ℕ) (p q : ℕ → Prop) [DecidablePred p] [DecidablePred q] (a : ℕ) :
    (List.range n).foldl
      (fun acc x => if p x then (if q x then acc + 1 else acc) else acc) a
      = a + ((Finset.range n).filter (fun x => p x ∧ q x)).card := by
  induction n generalizing a with
  | zero => simp
  | succ n ih =>
    rw [List.range_succ, List.foldl_append, ih, List.foldl_cons, List.foldl_nil,
      Finset.range_succ, Finset.filter_insert]
    by_cases hp : p n
    · by_cases hq : q n
      · rw [if_pos hp, if_pos hq, if_pos ⟨hp, hq⟩, Finset.card_insert_of_not_mem (by simp)]
        omega
      · rw [if_pos hp, if_neg hq, if_neg (by tauto)]
    · rw [if_neg hp, if_neg (by tauto)]

theorem length_filter_range (n : ℕ) (P : ℕ → Prop) [DecidablePred P] :
    ((List.range n).filter (fun x => decide (P x))).length
      = ((Finset.range n).filter P).card := by
  induction n with
  | zero => simp
  | succ n ih =>
    rw [List.range_succ, List.filter_append, List.length_append, ih, Finset.range_succ,
      Finset.filter_insert]
    by_cases hP : P n
    · simp [hP, Finset.card_insert_of_not_mem]
    · simp [hP]

theorem range'_map_sum (a n : ℕ) (f : ℕ → ℚ) :
    ((List.range' a n).map f).sum = ∑ k in Finset.range n, f (a + k) := by
  induction n generalizing a with
  | zero => simp
  | succ n ih =>
    rw [List.range'_succ, List.map_cons, List.sum_cons, ih (a + 1), Finset.sum_range_succ']
    have he : ∀ k : ℕ, f (a + 1 + k) = f (a + (k + 1)) := by
      intro k
      exact congrArg f (by omega)
    rw [Finset.sum_congr rfl (fun k _ => he k), Nat.add_zero, add_comm]

theorem foldl_pair_add (l : List ℕ) (F G : ℕ → ℚ) (s : ℚ × ℚ) :
    l.foldl (fun t j => (t.1 + F j, t.2 + G j)) s = (s.1 + (l.map F).sum, s.2 + (l.map G).sum) := by
  induction l generalizing s with
  | nil => simp
  | cons x xs ih => simp [ih, add_assoc]

theorem foldl_pair_guard (n : ℕ) (p : ℕ → Prop) [DecidablePred p] (F G : ℕ → ℚ) (s0 : ℚ × ℚ) :
    (List.range n).foldl (fun s i => if p i then (s.1 + F i, s.2 + G i) else s) s0
      = (s0.1 + ∑ i in Finset.range n, (if p i then F i else 0),
         s0.2 + ∑ i in Finset.range n, (if p i then G i else 0)) := by
  induction n generalizing s0 with
  | zero => simp
  | succ n ih =>
    rw [List.range_succ, List.foldl_append, ih, List.foldl_cons, List.foldl_nil,
      Finset.sum_range_succ, Finset.sum_range_succ]
    by_cases hp : p n
    · simp only [if_pos hp]
      rw [Prod.mk.injEq]
      exact ⟨by ring, by ring⟩
    · simp [hp]

theorem list_range_map_sum {M : Type*} [AddCommMonoid M] (n : ℕ) (f : ℕ → M) :
    ((List.range n).map f).sum = ∑ x in Finset.range n, f x := by
  induction n with
  | zero => simp
  | succ n ih =>
    rw [List.range_succ, List.map_append, List.sum_append, ih, Finset.sum_range_succ]
    simp

/-- `nbp` as a filter cardinality over the alignment positions. -/
theorem nbp_eq (msa : MSA) :
    nbp msa = ((Finset.range msa.alen).filter (fun apos => msa.ct (apos + 1) > apos + 1)).card := by
  rw [nbp, foldl_count_range1]
  omega

/-- `covStep` in closed form: when the MSA.c:1127 gate passes for sequence
`i`, the inner `j` loop adds the covariation terms and the weight
denominators of all pairs (i, j) with `j` in `(i, nseq)`. -/
theorem covStep_eq (msa : MSA) (apos rpos i : ℕ) (s : ℚ × ℚ) :
    covStep msa apos rpos i s =
      if msa.ax i (apos + 1) ≠ msa.K ∨ msa.ax i (rpos + 1) ≠ msa.K then
        (s.1 + ∑ j in Finset.Ico (i + 1) msa.nseq, cov_term msa apos rpos i j,
         s.2 + ∑ j in Finset.Ico (i + 1) msa.nseq, (msa.wgt i + msa.wgt j))
      else s := by
  unfold covStep
  by_cases hg : msa.ax i (apos + 1) ≠ msa.K ∨ msa.ax i (rpos + 1) ≠ msa.K
  · rw [if_pos hg, if_pos hg]
    rw [List.foldl_ext _
      (fun (t : ℚ × ℚ) j => (t.1 + cov_term msa apos rpos i j, t.2 + (msa.wgt i + msa.wgt j)))
      s ?_]
    · rw [foldl_pair_add, range'_map_sum, range'_map_sum,
        Finset.sum_Ico_eq_sum_range, Finset.sum_Ico_eq_sum_range]
    · intro t j _
      simp only [cov_term]
      by_cases hc : bp_is_canonical (msa.ax i (apos + 1)) (msa.ax i (rpos + 1)) = true ∧
          bp_is_canonical (msa.ax j (apos + 1)) (msa.ax j (rpos + 1)) = true
      · rw [if_pos hc, if_pos hc]
      · rw [if_neg hc, if_neg hc, Prod.mk.injEq]
        exact ⟨by ring, rfl⟩
  · rw [if_neg hg, if_neg hg]

/-- The final covA and cov_cntA entries in closed form, at a left pair half:
the gate is evaluated for the lower-indexed sequence `i` only. -/
theorem covPair_eq (msa : MSA) (apos rpos : ℕ) (h : rposA msa apos = (rpos : ℤ)) :
    covA_raw msa apos
        = (∑ i in Finset.range msa.nseq,
            if msa.ax i (apos + 1) ≠ msa.K ∨ msa.ax i (rpos + 1) ≠ msa.K then
              ∑ j in Finset.Ico (i + 1) msa.nseq, cov_term msa apos rpos i j
            else 0) ∧
    cov_cnt msa apos
        = (∑ i in Finset.range msa.nseq,
            if msa.ax i (apos + 1) ≠ msa.K ∨ msa.ax i (rpos + 1) ≠ msa.K then
              ∑ j in Finset.Ico (i + 1) msa.nseq, (msa.wgt i + msa.wgt j)
            else 0) := by
  have hne : rposA msa apos ≠ -1 := by rw [h]; omega
  have htn : (rposA msa apos).toNat = rpos := by rw [h]; exact Int.toNat_natCast rpos
  unfold covA_raw cov_cnt covPair
  rw [if_pos hne, htn,
    List.foldl_ext _
      (fun (s : ℚ × ℚ) i =>
        if msa.ax i (apos + 1) ≠ msa.K ∨ msa.ax i (rpos + 1) ≠ msa.K then
          (s.1 + ∑ j in Finset.Ico (i + 1) msa.nseq, cov_term msa apos rpos i j,
           s.2 + ∑ j in Finset.Ico (i + 1) msa.nseq, (msa.wgt i + msa.wgt j))
        else s)
      (0, 0) (fun s i _ => covStep_eq msa apos rpos i s),
    foldl_pair_guard]
  constructor <;> simp

-- Claim theorems.


/-- C1: on input counts (A,C,G,U) = (1,0,2,0) the six fractions are
M = 1/3, R = 1, W = 1/3, S = 2/3, Y = 0, K = 2/3, so the claimed result is
('R', 1).  The code instead returns ('S', 2/3): the `'R'` branch stores the
'M' fraction (MSA.c:910), so the running maximum stays at 1/3 and the later
'S' comparison overwrites the winner.  This contradicts the function's own
doc comment ("the fraction of total counts that the maximum character
represents", MSA.c:893-896). -/
theorem c1_two_letter_code_bug :
    max_rna_two_letter_ambiguity 1 0 2 0 = ('S', 2/3) ∧
    max_rna_two_letter_ambiguity_spec 1 0 2 0 = ('R', 1) ∧
    max_rna_two_letter_ambiguity 1 0 2 0 ≠ max_rna_two_letter_ambiguity_spec 1 0 2 0 := by
  have h1 : max_rna_two_letter_ambiguity 1 0 2 0 = ('S', 2/3) := by
    norm_num [max_rna_two_letter_ambiguity]
  have h2 : max_rna_two_letter_ambiguity_spec 1 0 2 0 = ('R', 1) := by
    norm_num [max_rna_two_letter_ambiguity_spec]
  refine ⟨h1, h2, ?_⟩
  rw [h1, h2]
  simp only [ne_eq, Prod.mk.injEq, not_and]
  intro h
  exact absurd h (by decide)

set_option maxHeartbeats 2000000 in
/-- C6: `bp_is_canonical a b` is true exactly on the twelve pairs of the
fixed table, and is symmetric in its arguments. -/
theorem c6_bp_is_canonical_table :
    ∀ a b : ℕ, (bp_is_canonical a b = true ↔ (a, b) ∈ canonicalPairs) ∧
      bp_is_canonical a b = bp_is_canonical b a := by
  have bound : ∀ a b : ℕ, 11 ≤ a ∨ 11 ≤ b → bp_is_canonical a b = false := by
    intro a b h
    unfold bp_is_canonical
    split_ifs <;> first | rfl | omega
  have key : ∀ a b : ℕ, bp_is_canonical a b = true ↔ (a, b) ∈ canonicalPairs := by
    intro a b
    by_cases ha : a < 11
    · by_cases hb : b < 11
      · interval_cases a <;> interval_cases b <;> decide
      · rw [bound a b (Or.inr (by omega))]
        simp only [Bool.false_eq_true, false_iff, canonicalPairs, List.mem_cons,
          List.not_mem_nil, or_false, Prod.mk.injEq]
        omega
    · rw [bound a b (Or.inl (by omega))]
      simp only [Bool.false_eq_true, false_iff, canonicalPairs, List.mem_cons,
        List.not_mem_nil, or_false, Prod.mk.injEq]
      omega
  intro a b
  refine ⟨key a b, ?_⟩
  by_cases ha : a < 11
  · by_cases hb : b < 11
    · interval_cases a <;> interval_cases b <;> decide
    · rw [bound a b (Or.inr (by omega)), bound b a (Or.inl (by omega))]
  · rw [bound a b (Or.inl (by omega)), bound b a (Or.inr (by omega))]

/-- C7: `bp_dist` is 0 iff both halves match, 2 iff both differ, 1 iff
exactly one differs; it vanishes on equal pairs and is symmetric under
swapping the two basepairs. -/
theorem c7_bp_dist_cases :
    ∀ a1 b1 a2 b2 : ℕ,
      ((bp_dist a1 b1 a2 b2 = 0 ↔ (a1 = a2 ∧ b1 = b2)) ∧
       (bp_dist a1 b1 a2 b2 = 2 ↔ (a1 ≠ a2 ∧ b1 ≠ b2)) ∧
       (bp_dist a1 b1 a2 b2 = 1 ↔ ((a1 = a2 ∧ b1 ≠ b2) ∨ (a1 ≠ a2 ∧ b1 = b2)))) ∧
      bp_dist a1 b1 a1 b1 = 0 ∧
      bp_dist a1 b1 a2 b2 = bp_dist a2 b2 a1 b1 := by
  intro a1 b1 a2 b2
  unfold bp_dist
  refine ⟨⟨?_, ?_, ?_⟩, ?_, ?_⟩ <;> split_ifs <;> (try simp_all) <;> omega

/-- Auxiliary: a guarded foldr-cons over a list produces `[]` when the
guard fails everywhere. -/
theorem foldr_skip {α : Type*} (l : List ℕ) (f : ℕ → α) (p : ℕ → Prop) [DecidablePred p]
    (h : ∀ x ∈ l, ¬ p x) :
    l.foldr (fun x acc => if p x then f x :: acc else acc) [] = [] := by
  induction l with
  | nil => rfl
  | cons x xs ih =>
    rw [List.foldr_cons, if_neg (h x (List.mem_cons_self x xs))]
    exact ih (fun y hy => h y (List.mem_cons_of_mem x hy))

/-- C2 (corrected): at a retained pair of columns, the covariation and
canonical-count accumulations gate sequences by the MSA.c:1127 test
`a1 != K || b1 != K`: the LOWER-indexed sequence `i` of a pair (i, j) is
skipped only when BOTH of its halves are the gap code, and the
higher-indexed sequence `j` is never tested; each accumulated pair (i, j)
contributes ±bpDistance*(wgt i + wgt j), positive exactly when both
realizations are individually canonical. -/
theorem c2_gate_amended (msa : MSA) (apos rpos : ℕ) (h : rposA msa apos = (rpos : ℤ)) :
    cov_cnt msa apos
        = (∑ i in Finset.range msa.nseq,
            if msa.ax i (apos + 1) ≠ msa.K ∨ msa.ax i (rpos + 1) ≠ msa.K then
              ∑ j in Finset.Ico (i + 1) msa.nseq, (msa.wgt i + msa.wgt j)
            else 0) ∧
    covA_raw msa apos
        = (∑ i in Finset.range msa.nseq,
            if msa.ax i (apos + 1) ≠ msa.K ∨ msa.ax i (rpos + 1) ≠ msa.K then
              ∑ j in Finset.Ico (i + 1) msa.nseq, cov_term msa apos rpos i j
            else 0) ∧
    (∀ i : ℕ, seq_can msa i
        = ((Finset.range msa.alen).filter (fun c =>
            rposA msa c ≠ -1 ∧
            ((msa.ax i (c + 1) ≠ msa.K ∨ msa.ax i ((rposA msa c).toNat + 1) ≠ msa.K) ∧
             bp_is_canonical (msa.ax i (c + 1)) (msa.ax i ((rposA msa c).toNat + 1)) = true))).card) := by
  refine ⟨(covPair_eq msa apos rpos h).2, (covPair_eq msa apos rpos h).1, ?_⟩
  intro i
  rw [seq_can, foldl_count_range2]
  omega

/-- C2 counterexample: in `msaHalfGap`, sequence 0 has a GAP at the left
half and a residue at the right half of the pair (columns 1:2), and
sequence 1 is all gaps; the claim's gating ("both halves non-gap", for
both members of a pair) admits no pair, yet the code accumulates the pair
(0,1) with weight denominator 2. -/
theorem c2_gate_counterexample :
    cov_cnt msaHalfGap 0 = 2 ∧ cov_cnt_claim msaHalfGap 0 = 0 := by
  constructor
  · norm_num [cov_cnt, covPair, covStep, rposA, msaHalfGap, List.range_succ,
      List.range'_succ, bp_is_canonical, bp_dist]
  · norm_num [cov_cnt_claim, rposA, msaHalfGap, Finset.sum_range_succ]

/-- Witness for C2's amended theorem at `msaHalfGap`, pair (0, 1). -/
theorem c2_gate_amended_witness :
    rposA msaHalfGap 0 = ((1 : ℕ) : ℤ) ∧
    (cov_cnt msaHalfGap 0
        = (∑ i in Finset.range msaHalfGap.nseq,
            if msaHalfGap.ax i (0 + 1) ≠ msaHalfGap.K ∨
               msaHalfGap.ax i (1 + 1) ≠ msaHalfGap.K then
              ∑ j in Finset.Ico (i + 1) msaHalfGap.nseq, (msaHalfGap.wgt i + msaHalfGap.wgt j)
            else 0) ∧
     covA_raw msaHalfGap 0
        = (∑ i in Finset.range msaHalfGap.nseq,
            if msaHalfGap.ax i (0 + 1) ≠ msaHalfGap.K ∨
               msaHalfGap.ax i (1 + 1) ≠ msaHalfGap.K then
              ∑ j in Finset.Ico (i + 1) msaHalfGap.nseq, cov_term msaHalfGap 0 1 i j
            else 0) ∧
     (∀ i : ℕ, seq_can msaHalfGap i
        = ((Finset.range msaHalfGap.alen).filter (fun c =>
            rposA msaHalfGap c ≠ -1 ∧
            ((msaHalfGap.ax i (c + 1) ≠ msaHalfGap.K ∨
              msaHalfGap.ax i ((rposA msaHalfGap c).toNat + 1) ≠ msaHalfGap.K) ∧
             bp_is_canonical (msaHalfGap.ax i (c + 1))
               (msaHalfGap.ax i ((rposA msaHalfGap c).toNat + 1)) = true))).card)) :=
  ⟨by decide, c2_gate_amended msaHalfGap 0 1 (by decide)⟩

/-- C4 (corrected): the mean covariation is the global ratio of the raw
(pre-normalization) per-position sums, 0 when no basepair is retained (in
which case the per-basepair record list is also empty); afterwards each
position's own reported score is divided by its own weight denominator —
but only when that denominator's absolute value strictly exceeds 1e-10
(at or below 1e-10 it is left unnormalized). -/
theorem c4_normalization_amended (msa : MSA) :
    (mean_cov msa = if nbp msa = 0 then 0
      else (∑ c in Finset.range msa.alen, covA_raw msa c) /
           (∑ c in Finset.range msa.alen, cov_cnt msa c)) ∧
    (∀ apos : ℕ, rposA msa apos ≠ -1 → 1 / 10 ^ 10 < |cov_cnt msa apos| →
      covA_rep msa apos = covA_raw msa apos / cov_cnt msa apos) ∧
    (∀ apos : ℕ, rposA msa apos ≠ -1 → |cov_cnt msa apos| ≤ 1 / 10 ^ 10 →
      covA_rep msa apos = covA_raw msa apos) ∧
    (nbp msa = 0 → bp_records msa = [] ∧ mean_cov msa = 0) := by
  refine ⟨?_, ?_, ?_, ?_⟩
  · rw [mean_cov, list_range_map_sum, list_range_map_sum]
  · intro apos h1 h2
    rw [covA_rep, if_pos ⟨h1, h2⟩]
  · intro apos h1 h2
    rw [covA_rep, if_neg ?_]
    rintro ⟨-, hgt⟩
    exact absurd hgt (not_lt.mpr h2)
  · intro h0
    have hall : ∀ apos ∈ List.range msa.alen, rposA msa apos = -1 := by
      intro apos hmem
      rw [List.mem_range] at hmem
      by_contra hne
      rw [nbp_eq, Finset.card_eq_zero] at h0
      have hp : msa.ct (apos + 1) > apos + 1 := by
        by_contra hng
        exact hne (by rw [rposA, if_neg hng])
      have hmm : apos ∈ (Finset.range msa.alen).filter
          (fun apos => msa.ct (apos + 1) > apos + 1) := by
        rw [Finset.mem_filter, Finset.mem_range]
        exact ⟨hmem, hp⟩
      rw [h0] at hmm
      exact absurd hmm (Finset.not_mem_empty apos)
    constructor
    · rw [bp_records]
      exact foldr_skip (List.range msa.alen) _ _ (fun x hx hne => hne (hall x hx))
    · rw [mean_cov, if_pos h0]

/-- C4 counterexample: in `msaTinyWgt` the single pair's weight denominator
is exactly 1e-10 — NOT below the threshold — yet the code leaves the
position's score unnormalized (the guard divides only on strict `>`). -/
theorem c4_boundary_counterexample :
    cov_cnt msaTinyWgt 0 = 1 / 10 ^ 10 ∧
    ¬ |cov_cnt msaTinyWgt 0| < 1 / 10 ^ 10 ∧
    covA_rep msaTinyWgt 0 = -(1 / 10 ^ 10) ∧
    covA_rep msaTinyWgt 0 ≠ covA_raw msaTinyWgt 0 / cov_cnt msaTinyWgt 0 := by
  have hcnt : cov_cnt msaTinyWgt 0 = 1 / 10 ^ 10 := by
    norm_num [cov_cnt, covPair, covStep, rposA, msaTinyWgt, List.range_succ,
      List.range'_succ, bp_is_canonical, bp_dist]
  have hraw : covA_raw msaTinyWgt 0 = -(1 / 10 ^ 10) := by
    norm_num [covA_raw, covPair, covStep, rposA, msaTinyWgt, List.range_succ,
      List.range'_succ, bp_is_canonical, bp_dist]
  have hrep : covA_rep msaTinyWgt 0 = -(1 / 10 ^ 10) := by
    rw [covA_rep, if_neg ?_, hraw]
    rintro ⟨-, hgt⟩
    rw [hcnt, abs_of_pos (by norm_num)] at hgt
    exact lt_irrefl _ hgt
  refine ⟨hcnt, by rw [hcnt]; exact not_lt.mpr (le_abs_self _), hrep, ?_⟩
  rw [hrep, hraw, hcnt]
  norm_num

/-- Witness for C4's amended theorem: the at-threshold position of
`msaTinyWgt` is left unnormalized, and the pair-free `msaSolo` yields an
empty record list and zero mean covariation. -/
theorem c4_normalization_witness :
    (rposA msaTinyWgt 0 ≠ -1 ∧ |cov_cnt msaTinyWgt 0| ≤ 1 / 10 ^ 10 ∧
      covA_rep msaTinyWgt 0 = covA_raw msaTinyWgt 0) ∧
    (nbp msaSolo = 0 ∧ (bp_records msaSolo = [] ∧ mean_cov msaSolo = 0)) := by
  have h1 : rposA msaTinyWgt 0 ≠ -1 := by decide
  have hcnt : cov_cnt msaTinyWgt 0 = 1 / 10 ^ 10 := by
    norm_num [cov_cnt, covPair, covStep, rposA, msaTinyWgt, List.range_succ,
      List.range'_succ, bp_is_canonical, bp_dist]
  have h2 : |cov_cnt msaTinyWgt 0| ≤ 1 / 10 ^ 10 := by
    rw [hcnt]
    exact le_of_eq (abs_of_pos (by norm_num))
  have h0 : nbp msaSolo = 0 := by decide
  exact ⟨⟨h1, h2, (c4_normalization_amended msaTinyWgt).2.2.1 0 h1 h2⟩,
    ⟨h0, (c4_normalization_amended msaSolo).2.2.2 h0⟩⟩

/-- C10: when the retained consensus structure has zero basepairs, the
guarded family-level and per-sequence fractional-canonical-basepair report
fields are exactly 0 (no division by `nbp` happens). -/
theorem c10_zero_bp_guard (msa : MSA) (h : nbp msa = 0) :
    fam_fractn_canonical msa = 0 ∧ ∀ i : ℕ, seq_fractn_canonical msa i = 0 := by
  constructor
  · rw [fam_fractn_canonical, if_pos h]
  · intro i
    rw [seq_fractn_canonical, if_pos h]

/-- Witness for C10 at the pair-free example alignment. -/
theorem c10_zero_bp_guard_witness :
    nbp msaSolo = 0 ∧
    (fam_fractn_canonical msaSolo = 0 ∧ ∀ i : ℕ, seq_fractn_canonical msaSolo i = 0) :=
  ⟨by decide, c10_zero_bp_guard msaSolo (by decide)⟩

/-- Auxiliary: a natural fraction with numerator at most denominator lies
in [0, 1] (in `ℚ`; denominator 0 yields 0). -/
theorem natdiv_unit (a b : ℕ) (hab : a ≤ b) : 0 ≤ (a : ℚ) / b ∧ (a : ℚ) / b ≤ 1 := by
  constructor
  · exact div_nonneg (by positivity) (by positivity)
  · rcases Nat.eq_zero_or_pos b with hb | hb
    · subst hb
      rw [Nat.le_zero.mp hab]
      norm_num
    · rw [div_le_one (by exact_mod_cast hb)]
      exact_mod_cast hab

/-- Auxiliary: filtering with a stronger predicate yields at most as many
elements. -/
theorem length_filter_mono {α : Type*} (l : List α) (p q : α → Bool)
    (h : ∀ x, p x = true → q x = true) :
    (l.filter p).length ≤ (l.filter q).length := by
  induction l with
  | nil => simp
  | cons x xs ih =>
    rw [List.filter_cons, List.filter_cons]
    cases hp : p x
    · cases hq : q x
      · simpa using ih
      · simp only [List.length_cons]
        exact le_trans ih (Nat.le_succ _)
    · rw [h x hp]
      simpa using ih

/-- The spec-modelled pairwise identity is a fraction in [0, 1]. -/
theorem pid_unit (msa : MSA) (i j : ℕ) : 0 ≤ pid msa i j ∧ pid msa i j ≤ 1 := by
  simp only [pid]
  refine natdiv_unit _ _ (length_filter_mono _ _ _ ?_)
  intro x hx
  simp only [decide_eq_true_eq] at hx ⊢
  exact hx.2

/-- C9: `_c_pairwise_identity` fails (croaks) whenever either index is
outside [0, nseq), and for in-range indices returns a fraction in
[0, 1]. -/
theorem c9_pairwise_identity_contract (msa : MSA) (i j : ℤ) :
    ((i < 0 ∨ (msa.nseq : ℤ) ≤ i ∨ j < 0 ∨ (msa.nseq : ℤ) ≤ j) →
      ∃ e, pairwise_identity msa i j = Except.error e) ∧
    (0 ≤ i → i < (msa.nseq : ℤ) → 0 ≤ j → j < (msa.nseq : ℤ) →
      ∃ q, pairwise_identity msa i j = Except.ok q ∧ 0 ≤ q ∧ q ≤ 1) := by
  constructor
  · intro hout
    unfold pairwise_identity
    by_cases hi : i < 0 ∨ (msa.nseq : ℤ) ≤ i
    · exact ⟨_, by rw [if_pos hi]⟩
    · have hj : j < 0 ∨ (msa.nseq : ℤ) ≤ j := by tauto
      exact ⟨_, by rw [if_neg hi, if_pos hj]⟩
  · intro h1 h2 h3 h4
    unfold pairwise_identity
    rw [if_neg (by omega), if_neg (by omega)]
    exact ⟨pid msa i.toNat j.toNat, rfl,
      (pid_unit msa i.toNat j.toNat).1, (pid_unit msa i.toNat j.toNat).2⟩

/-- Witness for C9: out-of-range index 5 errors and the in-range pair
(0, 1) of `msaTwin` yields a fraction in [0, 1]. -/
theorem c9_pairwise_identity_witness :
    (∃ e, pairwise_identity msaTwin 5 0 = Except.error e) ∧
    (∃ q, pairwise_identity msaTwin 0 1 = Except.ok q ∧ 0 ≤ q ∧ q ≤ 1) :=
  ⟨(c9_pairwise_identity_contract msaTwin 5 0).1 (by decide),
   (c9_pairwise_identity_contract msaTwin 0 1).2 (by decide) (by decide) (by decide) (by decide)⟩

/-- C5 (corrected): `_c_rfam_pid_stats` has no `nseq < 2` guard and raises
no error there: the loops run zero times and the mean is divided by the
integer pair count 0 (0/0, NaN in C, 0 in the `ℚ` embedding), giving
(mean, min, max) = (0, 1, 0). -/
theorem c5_pid_no_guard (msa : MSA) (h : msa.nseq < 2) :
    rfam_pid_stats msa = (0, 1, 0) := by
  have h01 : msa.nseq = 0 ∨ msa.nseq = 1 := by omega
  rcases h01 with h0 | h1
  · simp [rfam_pid_stats, h0]
  · simp [rfam_pid_stats, h1, List.range_succ]

/-- C5 counterexample: on a one-sequence alignment the function returns a
value — (0, 1, 0), with pair-count divisor 0 — instead of failing with a
contract error as claimed. -/
theorem c5_no_error_counterexample :
    msaSolo.nseq < 2 ∧ rfam_pid_stats msaSolo = (0, 1, 0) ∧
    msaSolo.nseq * (msaSolo.nseq - 1) / 2 = 0 := by
  refine ⟨by decide, ?_, by decide⟩
  simp [rfam_pid_stats, msaSolo]

/-- Witness for C5's amended theorem at the one-sequence alignment. -/
theorem c5_pid_no_guard_witness :
    msaSolo.nseq < 2 ∧ rfam_pid_stats msaSolo = (0, 1, 0) :=
  ⟨by decide, c5_pid_no_guard msaSolo (by decide)⟩

/-- Auxiliary: value of one composition bucket `b ≤ K` after folding
`dcount` over a list of columns: the initial value plus the weight times
the number of columns whose code is exactly `b`.  Degenerate codes
(`> K`) leave every bucket unchanged. -/
theorem abcA_bucket (msa : MSA) (i : ℕ) (l : List ℕ) (cnt0 : ℕ → ℚ) (b : ℕ)
    (hb : b ≤ msa.K) :
    (l.foldl (fun cnt apos => dcount msa cnt (msa.ax i (apos + 1)) (msa.wgt i)) cnt0) b
      = cnt0 b + msa.wgt i *
          (((l.filter (fun apos => msa.ax i (apos + 1) = b)).length : ℕ) : ℚ) := by
  induction l generalizing cnt0 with
  | nil => simp
  | cons x xs ih =>
    rw [List.foldl_cons, ih, List.filter_cons]
    simp only [dcount]
    by_cases hx : msa.ax i (x + 1) = b
    · have hxK : msa.ax i (x + 1) ≤ msa.K := hx ▸ hb
      rw [if_pos ⟨hxK, hx.symm⟩, if_pos (by simpa using hx), hx, List.length_cons]
      push_cast
      ring
    · have hstep : (if msa.ax i (x + 1) ≤ msa.K ∧ b = msa.ax i (x + 1)
          then cnt0 (msa.ax i (x + 1)) + msa.wgt i else cnt0 b) = cnt0 b := by
        rw [if_neg ?_]
        rintro ⟨-, hc⟩
        exact hx hc.symm
      rw [hstep, if_neg (by simpa using hx)]

/-- C3: per-sequence lengths count every residue-classified column,
degenerate residues included, while the weighted composition buckets
`b ≤ K` receive contributions only from columns whose code is exactly `b`
— degenerate codes (`> K`) add to no bucket. -/
theorem c3_composition (msa : MSA) (i : ℕ) :
    seq_len msa i
        = ((Finset.range msa.alen).filter
            (fun apos => isResidueCode msa (msa.ax i (apos + 1)) = true)).card ∧
    (∀ x : ℕ, msa.K < x → x < msa.Kp → isResidueCode msa x = true) ∧
    (∀ b : ℕ, b ≤ msa.K → abcA msa i b
        = msa.wgt i * (((Finset.range msa.alen).filter
            (fun apos => msa.ax i (apos + 1) = b)).card : ℚ)) := by
  refine ⟨?_, ?_, ?_⟩
  · rw [seq_len, foldl_count_range1]
    omega
  · intro x hK hKp
    simp [isResidueCode, hKp]
    omega
  · intro b hb
    rw [abcA, abcA_bucket msa i _ _ b hb, length_filter_range]
    simp

/-- Witness for C3 at `msaDegen` (columns A, R-degenerate, gap). -/
theorem c3_composition_witness :
    (seq_len msaDegen 0
        = ((Finset.range msaDegen.alen).filter
            (fun apos => isResidueCode msaDegen (msaDegen.ax 0 (apos + 1)) = true)).card) ∧
    (msaDegen.K < 5 ∧ 5 < msaDegen.Kp ∧ isResidueCode msaDegen 5 = true) ∧
    ((0 : ℕ) ≤ msaDegen.K ∧ abcA msaDegen 0 0
        = msaDegen.wgt 0 * (((Finset.range msaDegen.alen).filter
            (fun apos => msaDegen.ax 0 (apos + 1) = 0)).card : ℚ)) :=
  ⟨(c3_composition msaDegen 0).1,
   ⟨by decide, by decide, (c3_composition msaDegen 0).2.1 5 (by decide) (by decide)⟩,
   ⟨by decide, (c3_composition msaDegen 0).2.2 0 (by decide)⟩⟩

/-- Auxiliary: the `_c_rfam_pid_stats` accumulator update acts
componentwise — running minimum, running maximum, running sum. -/
theorem pidacc_foldl (l : List ℚ) (acc : PidAcc) :
    l.foldl (fun a p => ⟨min a.pmin p, max a.pmax p, a.psum + p⟩) acc
      = ⟨l.foldl min acc.pmin, l.foldl max acc.pmax, acc.psum + l.sum⟩ := by
  induction l generalizing acc with
  | nil =>
    obtain ⟨m, M, s⟩ := acc
    simp
  | cons x xs ih =>
    rw [List.foldl_cons, ih, List.foldl_cons, List.foldl_cons, List.sum_cons]
    simp [add_assoc]

/-- Auxiliary: a min-fold is bounded by its initial value. -/
theorem foldl_min_le_init (l : List ℚ) (a : ℚ) : l.foldl min a ≤ a := by
  induction l generalizing a with
  | nil => simp
  | cons x xs ih => exact le_trans (ih _) (min_le_left _ _)

/-- Auxiliary: a min-fold is bounded by every list element. -/
theorem foldl_min_le_mem (l : List ℚ) : ∀ (a x : ℚ), x ∈ l → l.foldl min a ≤ x := by
  induction l with
  | nil =>
    intro a x hx
    cases hx
  | cons y ys ih =>
    intro a x hx
    rcases List.mem_cons.mp hx with h | h
    · subst h
      exact le_trans (foldl_min_le_init ys _) (min_le_right _ _)
    · exact ih _ _ h

/-- Auxiliary: a max-fold dominates its initial value. -/
theorem init_le_foldl_max (l : List ℚ) (a : ℚ) : a ≤ l.foldl max a := by
  induction l generalizing a with
  | nil => simp
  | cons x xs ih => exact le_trans (le_max_left _ _) (ih _)

/-- Auxiliary: a max-fold dominates every list element. -/
theorem mem_le_foldl_max (l : List ℚ) : ∀ (a x : ℚ), x ∈ l → x ≤ l.foldl max a := by
  induction l with
  | nil =>
    intro a x hx
    cases hx
  | cons y ys ih =>
    intro a x hx
    rcases List.mem_cons.mp hx with h | h
    · subst h
      exact le_trans (le_max_right _ _) (init_le_foldl_max ys _)
    · exact ih _ _ h

/-- Auxiliary: a list sum is at least its length times a lower bound. -/
theorem card_mul_le_sum (l : List ℚ) (m : ℚ) (h : ∀ x ∈ l, m ≤ x) :
    (l.length : ℚ) * m ≤ l.sum := by
  induction l with
  | nil => simp
  | cons x xs ih =>
    rw [List.sum_cons, List.length_cons]
    have h1 := ih (fun y hy => h y (List.mem_cons_of_mem x hy))
    have h2 := h x (List.mem_cons_self x xs)
    push_cast
    nlinarith [h1, h2]

/-- Auxiliary: a list sum is at most its length times an upper bound. -/
theorem sum_le_card_mul (l : List ℚ) (M : ℚ) (h : ∀ x ∈ l, x ≤ M) :
    l.sum ≤ (l.length : ℚ) * M := by
  induction l with
  | nil => simp
  | cons x xs ih =>
    rw [List.sum_cons, List.length_cons]
    have h1 := ih (fun y hy => h y (List.mem_cons_of_mem x hy))
    have h2 := h x (List.mem_cons_self x xs)
    push_cast
    nlinarith [h1, h2]

/-- Auxiliary: the number of unordered pairs visited by the double loop. -/
theorem range_sub_sum (n : ℕ) :
    ((List.range n).map (fun i => n - (i + 1))).sum = n * (n - 1) / 2 := by
  rw [list_range_map_sum]
  have hre : ∑ j in Finset.range n, (n - 1 - j) = ∑ j in Finset.range n, j := by
    simpa using Finset.sum_range_reflect (fun j => j) n
  have h1 : ∀ i ∈ Finset.range n, n - (i + 1) = n - 1 - i := fun i _ => by omega
  rw [Finset.sum_congr rfl h1, hre, Finset.sum_range_id]

/-- Auxiliary: `pidL` has exactly `nseq*(nseq-1)/2` entries. -/
theorem pidL_length (msa : MSA) :
    (pidL msa).length = msa.nseq * (msa.nseq - 1) / 2 := by
  rw [pidL, List.length_flatten, List.map_map]
  have hcomp : (List.length ∘ fun i =>
      (List.range' (i + 1) (msa.nseq - (i + 1))).map (pid msa i))
      = fun i => msa.nseq - (i + 1) := by
    funext i
    simp
  rw [hcomp, range_sub_sum]

/-- `_c_rfam_pid_stats` in closed form over the flattened pid list. -/
theorem rfam_pid_stats_eq (msa : MSA) :
    rfam_pid_stats msa
      = ((pidL msa).sum / ((msa.nseq * (msa.nseq - 1) / 2 : ℕ) : ℚ),
         (pidL msa).foldl min 1, (pidL msa).foldl max 0) := by
  have hacc : (List.range msa.nseq).foldl (fun acc i =>
      (List.range' (i + 1) (msa.nseq - (i + 1))).foldl (fun acc j =>
        { pmin := min acc.pmin (pid msa i j)
          pmax := max acc.pmax (pid msa i j)
          psum := acc.psum + pid msa i j }) acc)
      ({ pmin := 1, pmax := 0, psum := 0 } : PidAcc)
      = ⟨(pidL msa).foldl min 1, (pidL msa).foldl max 0, 0 + (pidL msa).sum⟩ := by
    rw [List.foldl_ext _ (fun (acc : PidAcc) i =>
        ((List.range' (i + 1) (msa.nseq - (i + 1))).map (pid msa i)).foldl
          (fun a p => ⟨min a.pmin p, max a.pmax p, a.psum + p⟩) acc) _ ?_]
    · rw [← List.foldl_map
          (fun i => (List.range' (i + 1) (msa.nseq - (i + 1))).map (pid msa i))
          (fun (acc : PidAcc) l =>
            l.foldl (fun a p => ⟨min a.pmin p, max a.pmax p, a.psum + p⟩) acc),
        ← List.foldl_flatten, ← pidL, pidacc_foldl]
    · intro acc i _
      dsimp only
      rw [List.foldl_map]
  simp only [rfam_pid_stats]
  rw [hacc]
  simp

/-- C8: for alignments with at least two sequences the reported mean
pairwise identity lies between the reported minimum and maximum. -/
theorem c8_pid_mean_between (msa : MSA) (h : 2 ≤ msa.nseq) :
    (rfam_pid_stats msa).2.1 ≤ (rfam_pid_stats msa).1 ∧
    (rfam_pid_stats msa).1 ≤ (rfam_pid_stats msa).2.2 := by
  rw [rfam_pid_stats_eq]
  dsimp only
  have hlen : (pidL msa).length = msa.nseq * (msa.nseq - 1) / 2 := pidL_length msa
  have hm : 1 ≤ msa.nseq * (msa.nseq - 1) / 2 := by
    have h2 : 2 * 1 ≤ msa.nseq * (msa.nseq - 1) := Nat.mul_le_mul h (by omega)
    omega
  have hmQ : (0 : ℚ) < ((msa.nseq * (msa.nseq - 1) / 2 : ℕ) : ℚ) :=
    by exact_mod_cast Nat.lt_of_lt_of_le Nat.zero_lt_one hm
  constructor
  · rw [le_div_iff₀ hmQ, mul_comm]
    have hb := card_mul_le_sum (pidL msa) ((pidL msa).foldl min 1)
      (fun x hx => foldl_min_le_mem (pidL msa) 1 x hx)
    rw [hlen] at hb
    exact_mod_cast hb
  · rw [div_le_iff₀ hmQ, mul_comm]
    have hb := sum_le_card_mul (pidL msa) ((pidL msa).foldl max 0)
      (fun x hx => mem_le_foldl_max (pidL msa) 0 x hx)
    rw [hlen] at hb
    exact_mod_cast hb

/-- Witness for C8 at the two-sequence example alignment. -/
theorem c8_pid_mean_between_witness :
    2 ≤ msaTwin.nseq ∧
    ((rfam_pid_stats msaTwin).2.1 ≤ (rfam_pid_stats msaTwin).1 ∧
     (rfam_pid_stats msaTwin).1 ≤ (rfam_pid_stats msaTwin).2.2) :=
  ⟨by decide, c8_pid_mean_between msaTwin (by decide)⟩
